import Mathlib

/-!
Verification of the overlap-add synthesis script `synth_orig.py` of the
blowVC repository.  Real-valued audio samples are modelled as rationals,
sequences of samples as `List ℚ`, and Python/numpy failures (index errors,
assertion errors, key errors) as `Option`/`none`.
-/

namespace BlowVC

/-- Torch slice addition `y[off : off + len x] += x` (line 17 of
`synth_orig.py`).  Fails (runtime error) when the clipped slice does not have
the same length as a nonempty `x`, i.e. when `off + x.length > y.length`. -/
def sliceAdd : List ℚ → ℕ → List ℚ → Option (List ℚ)
  | ys, _, [] => some ys
  | [], 0, _ :: _ => none
  | yh :: yt, 0, xh :: xt => (sliceAdd yt 0 xt).map (fun z => (yh + xh) :: z)
  | [], _ + 1, _ :: _ => none
  | yh :: yt, n + 1, xs => (sliceAdd yt n xs).map (fun z => yh :: z)

/-- The loop `for i, x in enumerate(frames): y[i*stride : i*stride+len(x)] += x`
(lines 16-17), starting at frame index `i`. -/
def olaGo (stride : ℕ) : List ℚ → ℕ → List (List ℚ) → Option (List ℚ)
  | y, _, [] => some y
  | y, i, x :: rest => (sliceAdd y (i * stride) x).bind fun y2 => olaGo stride y2 (i + 1) rest

/-- Lines 15-17 of `synth_orig.py`: allocate a zero buffer of length
`(len(frames) - 1) * stride + len(frames[0])` and overlap-add every frame at
offset `i * stride`.  On an empty frame list, `frames[0]` raises `IndexError`,
modelled as `none`. -/
def olaBuffer (frames : List (List ℚ)) (stride : ℕ) : Option (List ℚ) :=
  match frames with
  | [] => none
  | f0 :: _ =>
    olaGo stride (List.replicate ((frames.length - 1) * stride + f0.length) 0) 0 frames

/-- The recurrence `y[n] = x[n] + alpha * y[n-1]` of `deemphasis`
(lines 44-45), with `prev` the previously produced sample. -/
def deemphGo (alpha : ℚ) : ℚ → List ℚ → List ℚ
  | _, [] => []
  | prev, x :: xs => (x + alpha * prev) :: deemphGo alpha (x + alpha * prev) xs

/-- Lines 37-46 of `synth_orig.py`: `deemphasis(x, alpha)`.
`assert 0 <= alpha <= 1` failing is modelled as `none`; `alpha ∈ {0, 1}`
returns the input unchanged; otherwise `y[0] = x[0]` and
`y[n] = x[n] + alpha * y[n-1]` for `n ≥ 1`. -/
def deemphasis (x : List ℚ) (alpha : ℚ) : Option (List ℚ) :=
  if 0 ≤ alpha ∧ alpha ≤ 1 then
    if alpha = 0 ∨ alpha = 1 then some x
    else some (match x with
      | [] => []
      | x0 :: xs => x0 :: deemphGo alpha x0 xs)
  else none

/-- `np.mean(y)` over the model: sum divided by length. -/
def mean (y : List ℚ) : ℚ := y.sum / (y.length : ℚ)

/-- `np.max(np.abs(y))`: peak absolute value of the buffer (0 on the empty
buffer, which the script never produces). -/
def peak (y : List ℚ) : ℚ := (y.map (fun v => |v|)).foldr max 0

/-- Line 24 of `synth_orig.py`: `y -= np.mean(y)`, the mean-subtracted (DC
removed) buffer. -/
def centered (y : List ℚ) : List ℚ := y.map (fun v => v - mean y)

/-- Lines 24-27 of `synth_orig.py` (the `normalize` branch): subtract the
mean, then if the peak absolute value is positive rescale by `ymax / peak`. -/
def normalizeBuf (ymax : ℚ) (y : List ℚ) : List ℚ :=
  if 0 < peak (centered y) then
    (centered y).map (fun v => v * (ymax / peak (centered y)))
  else centered y

/-- `np.clip(v, -ymax, ymax)` on a single sample (line 29). -/
def clip1 (ymax : ℚ) (v : ℚ) : ℚ :=
  if v < -ymax then -ymax else if v > ymax then ymax else v

/-- Line 29 of `synth_orig.py`: `y = np.clip(y, -ymax, ymax)`. -/
def clipBuf (ymax : ℚ) (y : List ℚ) : List ℚ := y.map (clip1 ymax)

/-- Lines 15-21 of `synth_orig.py`: the accumulated buffer after the optional
de-emphasis filter (`if deemph > 0`), before normalization/clipping. -/
def synthBuffer (frames : List (List ℚ)) (stride : ℕ) (deemph : ℚ) :
    Option (List ℚ) :=
  (olaBuffer frames stride).bind fun y =>
    if 0 < deemph then deemphasis y deemph else some y

/-- Lines 13-32 of `synth_orig.py`: the float waveform returned by
`synthesize(frames, filename, stride, sr, deemph, ymax, normalize)`. -/
def synthesize (frames : List (List ℚ)) (stride : ℕ) (deemph : ℚ) (ymax : ℚ)
    (normalize : Bool) : Option (List ℚ) :=
  (synthBuffer frames stride deemph).map fun y =>
    if normalize then normalizeBuf ymax y else clipBuf ymax y

/-- Truncation toward zero, the effect of numpy's float-to-`int16` cast on
in-range values (line 31 writes `np.array(y * 32767, dtype=np.int16)`). -/
def truncQ (q : ℚ) : ℤ := if q < 0 then ⌈q⌉ else ⌊q⌋

/-- The list of 16-bit PCM samples written by line 31 for a float buffer `y`:
each sample is the truncating cast of `y[k] * 32767`. -/
def writtenPCM (y : List ℚ) : List ℤ := y.map fun v => truncQ (v * 32767)

/-- The PCM data `synthesize` writes to the output WAV file (line 31),
when it does not fail earlier. -/
def synthWrite (frames : List (List ℚ)) (stride : ℕ) (deemph : ℚ) (ymax : ℚ)
    (normalize : Bool) : Option (List ℤ) :=
  (synthesize frames stride deemph ymax normalize).map writtenPCM

/-! ### The transformation plan builder and the streaming conversion loop
(lines 127-237 of `synth_orig.py`) -/

/-- The per-record metadata `(i, j, last, ispk, iut)` delivered by the dataset
loader; only the file index `i` and the boundary flag `last` are consumed by
the script. -/
structure Info where
  fileIdx : ℕ
  last : Bool

/-- A loader batch `(x, info)`: a list of frames paired with their metadata,
mirroring `for n in range(len(x)): ... info[n]`. -/
abbrev Batch := List (List ℚ × Info)

/-- The configuration and external collaborators of the script: parsed
arguments (`force_target_speaker`, `maxfiles`, `convert`, `stride`,
`synth_nonorm`), the dataset (`filenames`, `filename_split`, the
speaker-name-to-id dictionary, modelled on `Option String` keys so that the
Python `None` key is expressible), the seeded random draws
`lspeakers[np.random.randint(len(lspeakers))]` (the value of the `k`-th draw
is `rng k`), the Hann `window`, and the black-box model transform
(`model.forward` then `model.reverse`). -/
structure Cfg where
  force : Option String
  maxfiles : ℕ
  filenames : List String
  split1 : String → String
  table : Option String → Option ℕ
  rng : ℕ → String
  window : List ℚ
  convert : Bool
  transform : List (List ℚ) → List (List ℚ)
  stride : ℕ
  synthNonorm : Bool

/-- `dataset.filenames[i][:-len('.pt')]` (line 147). -/
def fnOf (cfg : Cfg) (inf : Info) : String :=
  (cfg.filenames.getD inf.fileIdx "").dropRight 3

/-- The mutable state of the transformation-plan building loop
(lines 130-158): the current `target_speaker`, the `fnlist` triples, the
per-batch `itrafos` id pairs with the current batch's `isource`/`itarget`
lists, the processed-file counter `nfiles`, and the number of random draws
consumed so far. -/
structure PBState where
  target : Option String
  fnlist : List (String × String × Option String)
  itrafos : List (List ℕ × List ℕ)
  isource : List ℕ
  itarget : List ℕ
  nfiles : ℕ
  dcount : ℕ

/-- Lines 139-153: processing one record of a batch.  Both speaker-table
lookups (`speakers[source_speaker]`, `speakers[target_speaker]`) can raise
`KeyError`, modelled as `none`.  At a file boundary with `nfiles < maxfiles`
the `(fn, source_speaker, target_speaker)` triple is recorded, a fresh random
target speaker is drawn (overridden by `force_target_speaker` when set), and
`nfiles` is incremented. -/
def pbRecord (cfg : Cfg) (st : PBState) (r : List ℚ × Info) : Option PBState :=
  match cfg.table (some (cfg.split1 (cfg.filenames.getD r.2.fileIdx ""))),
        cfg.table st.target with
  | some sid, some tid =>
    if r.2.last = true ∧ st.nfiles < cfg.maxfiles then
      some { st with
        isource := st.isource ++ [sid],
        itarget := st.itarget ++ [tid],
        fnlist := st.fnlist ++
          [(fnOf cfg r.2, cfg.split1 (cfg.filenames.getD r.2.fileIdx ""), st.target)],
        target := if cfg.force.isSome then cfg.force else some (cfg.rng st.dcount),
        nfiles := st.nfiles + 1,
        dcount := st.dcount + 1 }
    else
      some { st with isource := st.isource ++ [sid], itarget := st.itarget ++ [tid] }
  | _, _ => none

/-- The inner loop `for n in range(len(x))` of the plan builder
(lines 137-153). -/
def pbRecs (cfg : Cfg) : PBState → List (List ℚ × Info) → Option PBState
  | st, [] => some st
  | st, r :: rs => (pbRecord cfg st r).bind fun st2 => pbRecs cfg st2 rs

/-- The outer loop `for x, info in loader` of the plan builder
(lines 135-158): per batch, `isource`/`itarget` start empty, the records are
processed, the pair is appended to `itrafos`, and the loop breaks once
`nfiles >= maxfiles`. -/
def pbBatches (cfg : Cfg) : PBState → List Batch → Option PBState
  | st, [] => some st
  | st, b :: bs =>
    (pbRecs cfg { st with isource := [], itarget := [] } b).bind fun st2 =>
      let st3 := { st2 with itrafos := st2.itrafos ++ [(st2.isource, st2.itarget)] }
      if cfg.maxfiles ≤ st3.nfiles then some st3 else pbBatches cfg st3 bs

/-- Lines 130-134: `target_speaker = None`, overridden by
`force_target_speaker` when set; empty `fnlist`/`itrafos`; `nfiles = 0`. -/
def pbInit (cfg : Cfg) : PBState :=
  { target := cfg.force, fnlist := [], itrafos := [], isource := [], itarget := [],
    nfiles := 0, dcount := 0 }

/-- The whole transformation-plan building pass (lines 129-158). -/
def buildPlan (cfg : Cfg) (batches : List Batch) : Option PBState :=
  pbBatches cfg (pbInit cfg) batches

/-- The boundary records of a record stream: the metadata entries whose
`last` flag is set. -/
def lastInfos (rs : List (List ℚ × Info)) : List Info :=
  (rs.map Prod.snd).filter (fun inf => inf.last)

/-- The mutable state of the synthesis loop (lines 178-234): the per-file
frame accumulator `audio`, the flushed-file counter `nfiles`, and the list of
flushes performed so far, each recording the boundary record's metadata, the
`fnlist` triple used for the output filename, and the synthesized waveform. -/
structure SLState where
  audio : List (List ℚ)
  nfiles : ℕ
  outs : List (Info × (String × String × Option String) × Option (List ℚ))

/-- Line 178-179: `audio = []`, `nfiles = 0`. -/
def slInit : SLState := { audio := [], nfiles := 0, outs := [] }

/-- Lines 194-209: the optional model conversion of the batch followed by
`x *= window`. -/
def slPrep (cfg : Cfg) (b : Batch) : Batch :=
  let xs := b.map Prod.fst
  let xs2 := if cfg.convert then cfg.transform xs else xs
  (xs2.map fun f => List.zipWith (· * ·) f cfg.window).zip (b.map Prod.snd)

/-- Lines 210-234: the inner record loop of the synthesis pass.  Every frame
is appended to `audio`; at a boundary record, `fnlist[nfiles]` is looked up
(`IndexError`, modelled as `none`, if out of range), the accumulated audio is
synthesized and flushed, the accumulator is reset, `nfiles` is incremented,
and the inner loop breaks once `nfiles >= maxfiles`. -/
def slRecs (cfg : Cfg) (fnlist : List (String × String × Option String)) :
    SLState → List (List ℚ × Info) → Option SLState
  | st, [] => some st
  | st, (f, inf) :: rs =>
    let st1 : SLState := { st with audio := st.audio ++ [f] }
    if inf.last then
      match fnlist.get? st1.nfiles with
      | none => none
      | some tr =>
        let st2 : SLState :=
          { audio := [],
            nfiles := st1.nfiles + 1,
            outs := st1.outs ++ [(inf, tr,
              synthesize st1.audio cfg.stride 0 (98/100) (!cfg.synthNonorm))] }
        if cfg.maxfiles ≤ st2.nfiles then some st2 else slRecs cfg fnlist st2 rs
    else slRecs cfg fnlist st1 rs

/-- The outer loop of the synthesis pass over the batches it actually
consumes (lines 185-187 break as soon as `k >= len(itrafos)`, so only the
first `len(itrafos)` batches are processed; the caller passes exactly
those). -/
def slBatches (cfg : Cfg) (fnlist : List (String × String × Option String)) :
    SLState → List Batch → Option SLState
  | st, [] => some st
  | st, b :: bs =>
    (slRecs cfg fnlist st (slPrep cfg b)).bind fun st2 => slBatches cfg fnlist st2 bs

/-- The two passes of the script run on the same deterministic batch stream
(the loader is created with `shuffle=False`): build the transformation plan,
then run the synthesis loop over the first `len(itrafos)` batches using the
plan's `fnlist`. -/
def slRun (cfg : Cfg) (batches : List Batch) : Option (PBState × SLState) :=
  (buildPlan cfg batches).bind fun plan =>
    (slBatches cfg plan.fnlist slInit (batches.take plan.itrafos.length)).map
      fun st => (plan, st)

/-- A tiny concrete configuration used to instantiate the loop theorems:
one file `a.pt` of one frame, forced target speaker `B`. -/
def cfgW : Cfg :=
  { force := some "B", maxfiles := 1, filenames := ["a.pt"],
    split1 := fun _ => "A", table := fun _ => some 0, rng := fun _ => "Z",
    window := [1], convert := false, transform := id, stride := 1,
    synthNonorm := true }

/-- The batch stream for `cfgW`: a single batch holding the single one-sample
frame of file 0, flagged as its last frame. -/
def batchesW : List Batch := [[([0], ⟨0, true⟩)]]

/-- `cfgW` with the forced target speaker removed, for the unforced-target
theorems. -/
def cfgU : Cfg :=
  { cfgW with force := none }

/-! ### Lemmas about the overlap-add buffer -/

theorem sliceAdd_nil_pos : ∀ (y : List ℚ) (off : ℕ), sliceAdd y off [] = some y := by
  intro y off
  cases y <;> cases off <;> rfl

theorem sliceAdd_cons_zero (yh : ℚ) (yt : List ℚ) (xh : ℚ) (xt : List ℚ) :
    sliceAdd (yh :: yt) 0 (xh :: xt) = (sliceAdd yt 0 xt).map (fun z => (yh + xh) :: z) :=
  rfl

theorem sliceAdd_cons_succ (yh : ℚ) (yt : List ℚ) (n : ℕ) (xh : ℚ) (xt : List ℚ) :
    sliceAdd (yh :: yt) (n + 1) (xh :: xt) =
      (sliceAdd yt n (xh :: xt)).map (fun z => yh :: z) :=
  rfl

theorem sliceAdd_nil_left : ∀ (off : ℕ) (xh : ℚ) (xt : List ℚ),
    sliceAdd [] off (xh :: xt) = none := by
  intro off xh xt
  cases off <;> rfl

theorem sliceAdd_length :
    ∀ (y : List ℚ) (off : ℕ) (x z : List ℚ),
      sliceAdd y off x = some z → z.length = y.length := by
  intro y
  induction y with
  | nil =>
    intro off x z h
    match x with
    | [] => rw [sliceAdd_nil_pos] at h; cases h; rfl
    | xh :: xt => rw [sliceAdd_nil_left] at h; cases h
  | cons yh yt ih =>
    intro off x z h
    match x, off with
    | [], _ => rw [sliceAdd_nil_pos] at h; cases h; rfl
    | xh :: xt, 0 =>
      rw [sliceAdd_cons_zero] at h
      cases hs : sliceAdd yt 0 xt with
      | none => rw [hs] at h; cases h
      | some z2 =>
        rw [hs, Option.map_some'] at h
        cases h
        simp [ih 0 xt z2 hs]
    | xh :: xt, n + 1 =>
      rw [sliceAdd_cons_succ] at h
      cases hs : sliceAdd yt n (xh :: xt) with
      | none => rw [hs] at h; cases h
      | some z2 =>
        rw [hs, Option.map_some'] at h
        cases h
        simp [ih n (xh :: xt) z2 hs]

theorem sliceAdd_isSome :
    ∀ (y : List ℚ) (off : ℕ) (x : List ℚ),
      off + x.length ≤ y.length → (sliceAdd y off x).isSome := by
  intro y
  induction y with
  | nil =>
    intro off x h
    match x with
    | [] => rw [sliceAdd_nil_pos]; rfl
    | xh :: xt => simp at h
  | cons yh yt ih =>
    intro off x h
    match x, off with
    | [], _ => rw [sliceAdd_nil_pos]; rfl
    | xh :: xt, 0 =>
      rw [sliceAdd_cons_zero, Option.isSome_map']
      exact ih 0 xt (by simp at h ⊢; omega)
    | xh :: xt, n + 1 =>
      rw [sliceAdd_cons_succ, Option.isSome_map']
      exact ih n (xh :: xt) (by simp at h ⊢; omega)

theorem sliceAdd_getD :
    ∀ (y : List ℚ) (off : ℕ) (x z : List ℚ), sliceAdd y off x = some z →
      ∀ t, z.getD t 0 = y.getD t 0 +
        (if off ≤ t ∧ t < off + x.length then x.getD (t - off) 0 else 0) := by
  intro y
  induction y with
  | nil =>
    intro off x z h t
    match x with
    | [] => rw [sliceAdd_nil_pos] at h; cases h; simp
    | xh :: xt => rw [sliceAdd_nil_left] at h; cases h
  | cons yh yt ih =>
    intro off x z h t
    match x, off with
    | [], _ => rw [sliceAdd_nil_pos] at h; cases h; simp
    | xh :: xt, 0 =>
      rw [sliceAdd_cons_zero] at h
      cases hs : sliceAdd yt 0 xt with
      | none => rw [hs] at h; cases h
      | some z2 =>
        rw [hs, Option.map_some'] at h
        cases h
        match t with
        | 0 => simp
        | t + 1 =>
          have hrec := ih 0 xt z2 hs t
          simp only [List.getD_cons_succ, hrec, List.length_cons]
          by_cases hlt : t < xt.length
          · simp [hlt, Nat.succ_lt_succ hlt]
          · have : ¬ t + 1 < xt.length + 1 := by omega
            simp [hlt, this]
    | xh :: xt, n + 1 =>
      rw [sliceAdd_cons_succ] at h
      cases hs : sliceAdd yt n (xh :: xt) with
      | none => rw [hs] at h; cases h
      | some z2 =>
        rw [hs, Option.map_some'] at h
        cases h
        match t with
        | 0 =>
          have : ¬ (n + 1 ≤ 0) := by omega
          simp [this]
        | t + 1 =>
          have hrec := ih n (xh :: xt) z2 hs t
          simp only [List.getD_cons_succ, hrec]
          have hiff : (n + 1 ≤ t + 1 ∧ t + 1 < n + 1 + (xh :: xt).length) ↔
              (n ≤ t ∧ t < n + (xh :: xt).length) := by
            constructor <;> (intro hx; exact ⟨by omega, by omega⟩)
          rw [show t + 1 - (n + 1) = t - n from by omega, if_congr hiff rfl rfl]

theorem olaGo_length :
    ∀ (fs : List (List ℚ)) (stride : ℕ) (y : List ℚ) (i : ℕ) (z : List ℚ),
      olaGo stride y i fs = some z → z.length = y.length := by
  intro fs
  induction fs with
  | nil =>
    intro stride y i z h
    cases h
    rfl
  | cons f rest ih =>
    intro stride y i z h
    simp only [olaGo] at h
    cases hs : sliceAdd y (i * stride) f with
    | none => rw [hs] at h; cases h
    | some y2 =>
      rw [hs, Option.some_bind] at h
      have h1 := sliceAdd_length y (i * stride) f y2 hs
      have h2 := ih stride y2 (i + 1) z h
      omega

theorem olaGo_isSome :
    ∀ (fs : List (List ℚ)) (stride : ℕ) (y : List ℚ) (i : ℕ),
      (∀ k, k < fs.length → (i + k) * stride + (fs.getD k []).length ≤ y.length) →
      (olaGo stride y i fs).isSome := by
  intro fs
  induction fs with
  | nil => intro stride y i _; rfl
  | cons f rest ih =>
    intro stride y i hfit
    have h0 := hfit 0 (by simp)
    simp only [Nat.add_zero, List.getD_cons_zero] at h0
    have hslice := sliceAdd_isSome y (i * stride) f h0
    cases hs : sliceAdd y (i * stride) f with
    | none => rw [hs] at hslice; cases hslice
    | some y2 =>
      simp only [olaGo, hs, Option.some_bind]
      apply ih stride y2 (i + 1)
      intro k hk
      have hlen := sliceAdd_length y (i * stride) f y2 hs
      have hnext := hfit (k + 1) (by simpa using Nat.succ_lt_succ hk)
      simp only [List.getD_cons_succ] at hnext
      have harith : i + 1 + k = i + (k + 1) := by omega
      rw [harith, hlen]
      exact hnext

theorem olaGo_append :
    ∀ (as bs : List (List ℚ)) (stride : ℕ) (y : List ℚ) (i : ℕ),
      olaGo stride y i (as ++ bs) =
        (olaGo stride y i as).bind fun y2 => olaGo stride y2 (i + as.length) bs := by
  intro as
  induction as with
  | nil => intro bs stride y i; simp [olaGo]
  | cons f rest ih =>
    intro bs stride y i
    simp only [List.cons_append, olaGo]
    cases hs : sliceAdd y (i * stride) f with
    | none => simp
    | some y2 =>
      simp only [Option.some_bind]
      rw [List.append_eq, ih bs stride y2 (i + 1)]
      have harith : i + 1 + rest.length = i + (rest.length + 1) := by omega
      rw [harith]
      rfl

theorem olaGo_allzero :
    ∀ (fs : List (List ℚ)) (stride : ℕ) (y : List ℚ) (i : ℕ) (z : List ℚ),
      (∀ f ∈ fs, ∀ v ∈ f, v = 0) → olaGo stride y i fs = some z →
      ∀ t, z.getD t 0 = y.getD t 0 := by
  intro fs
  induction fs with
  | nil =>
    intro stride y i z _ h t
    cases h
    rfl
  | cons f rest ih =>
    intro stride y i z hz h t
    simp only [olaGo] at h
    cases hs : sliceAdd y (i * stride) f with
    | none => rw [hs] at h; cases h
    | some y2 =>
      rw [hs, Option.some_bind] at h
      have h2 := ih stride y2 (i + 1) z (fun g hg => hz g (by simp [hg])) h t
      have h1 := sliceAdd_getD y (i * stride) f y2 hs t
      have hzero : f.getD (t - i * stride) 0 = 0 := by
        rcases Nat.lt_or_ge (t - i * stride) f.length with hlt | hge
        · have hmem : f.getD (t - i * stride) 0 ∈ f := by
            rw [List.getD_eq_getElem?_getD, List.getElem?_eq_getElem hlt]
            exact List.getElem_mem hlt
          exact hz f (by simp) _ hmem
        · rw [List.getD_eq_getElem?_getD, List.getElem?_eq_none hge]
          rfl
      rw [h2, h1, hzero]
      simp

theorem getD_replicate_zero (n t : ℕ) : (List.replicate n (0 : ℚ)).getD t 0 = 0 := by
  rw [List.getD_eq_getElem?_getD, List.getElem?_replicate]
  split_ifs <;> rfl

theorem olaBuffer_spec (frames : List (List ℚ)) (stride L : ℕ)
    (hne : frames ≠ []) (hlen : ∀ f ∈ frames, f.length = L) :
    (olaBuffer frames stride).isSome ∧
    ∀ z, olaBuffer frames stride = some z →
      z.length = (frames.length - 1) * stride + L := by
  obtain ⟨f0, rest, rfl⟩ := List.exists_cons_of_ne_nil hne
  have hf0 : f0.length = L := hlen f0 (List.mem_cons_self f0 rest)
  have hbuf : olaBuffer (f0 :: rest) stride =
      olaGo stride
        (List.replicate (((f0 :: rest).length - 1) * stride + f0.length) (0 : ℚ)) 0
        (f0 :: rest) := rfl
  have hfit : ∀ k, k < (f0 :: rest).length →
      (0 + k) * stride + ((f0 :: rest).getD k []).length ≤
      (List.replicate (((f0 :: rest).length - 1) * stride + f0.length) (0 : ℚ)).length := by
    intro k hk
    have hmem : (f0 :: rest).getD k [] ∈ f0 :: rest := by
      rw [List.getD_eq_getElem?_getD, List.getElem?_eq_getElem hk]
      exact List.getElem_mem hk
    rw [hlen _ hmem, List.length_replicate, hf0, Nat.zero_add]
    have hk1 : k ≤ (f0 :: rest).length - 1 := by
      simp at hk ⊢
      omega
    have := Nat.mul_le_mul_right stride hk1
    omega
  constructor
  · rw [hbuf]
    exact olaGo_isSome (f0 :: rest) stride _ 0 hfit
  · intro z hz
    rw [hbuf] at hz
    have := olaGo_length (f0 :: rest) stride _ 0 z hz
    rw [this, List.length_replicate, hf0]

/-! ### Lemmas about the de-emphasis filter -/

theorem deemphGo_length (alpha : ℚ) :
    ∀ (prev : ℚ) (xs : List ℚ), (deemphGo alpha prev xs).length = xs.length := by
  intro prev xs
  induction xs generalizing prev with
  | nil => rfl
  | cons x xs ih => simp [deemphGo, ih]

theorem deemphasis_length (x : List ℚ) (alpha : ℚ) :
    ∀ z, deemphasis x alpha = some z → z.length = x.length := by
  intro z h
  unfold deemphasis at h
  split_ifs at h with h1 h2
  · cases h
    rfl
  · cases h
    cases x with
    | nil => rfl
    | cons x0 xs => simp [deemphGo_length]

theorem deemphasis_isSome (x : List ℚ) (alpha : ℚ) (h0 : 0 ≤ alpha) (h1 : alpha ≤ 1) :
    (deemphasis x alpha).isSome := by
  unfold deemphasis
  rw [if_pos (And.intro h0 h1)]
  split_ifs <;> rfl

theorem deemphGo_getD_zero (alpha prev : ℚ) (xs : List ℚ) (h : xs ≠ []) :
    (deemphGo alpha prev xs).getD 0 0 = xs.getD 0 0 + alpha * prev := by
  cases xs with
  | nil => exact absurd rfl h
  | cons x xs => rfl

theorem deemphGo_getD_succ (alpha : ℚ) :
    ∀ (prev : ℚ) (xs : List ℚ) (n : ℕ), n + 1 < xs.length →
      (deemphGo alpha prev xs).getD (n + 1) 0 =
        xs.getD (n + 1) 0 + alpha * (deemphGo alpha prev xs).getD n 0 := by
  intro prev xs
  induction xs generalizing prev with
  | nil => intro n h; simp at h
  | cons x xs ih =>
    intro n h
    match n with
    | 0 =>
      have hne : xs ≠ [] := by
        intro hx
        rw [hx] at h
        simp at h
      simp only [deemphGo, List.getD_cons_succ, List.getD_cons_zero]
      exact deemphGo_getD_zero alpha (x + alpha * prev) xs hne
    | n + 1 =>
      simp only [deemphGo, List.getD_cons_succ]
      exact ih (x + alpha * prev) n (by simp at h; omega)

/-! ### Lemmas about normalization and clipping -/

theorem sum_map_sub_const (y : List ℚ) (m : ℚ) :
    (y.map (fun v => v - m)).sum = y.sum - (y.length : ℚ) * m := by
  induction y with
  | nil => simp
  | cons a l ih =>
    simp only [List.map_cons, List.sum_cons, ih, List.length_cons]
    push_cast
    ring

theorem sum_map_mul_const (y : List ℚ) (c : ℚ) :
    (y.map (fun v => v * c)).sum = y.sum * c := by
  induction y with
  | nil => simp
  | cons a l ih =>
    simp only [List.map_cons, List.sum_cons, ih]
    ring

theorem mean_map_mul_const (y : List ℚ) (c : ℚ) :
    mean (y.map (fun v => v * c)) = mean y * c := by
  unfold mean
  rw [sum_map_mul_const, List.length_map]
  ring

theorem mean_center (y : List ℚ) (hne : y ≠ []) :
    mean (centered y) = 0 := by
  have hlen : (y.length : ℚ) ≠ 0 := by
    simp [List.length_eq_zero, hne]
  unfold centered mean
  rw [sum_map_sub_const, List.length_map]
  field_simp

theorem peak_cons (v : ℚ) (y : List ℚ) : peak (v :: y) = max |v| (peak y) := rfl

theorem peak_nonneg (y : List ℚ) : 0 ≤ peak y := by
  induction y with
  | nil => exact le_refl 0
  | cons a l ih =>
    rw [peak_cons]
    exact le_trans ih (le_max_right _ _)

theorem abs_le_peak (y : List ℚ) (v : ℚ) (hv : v ∈ y) : |v| ≤ peak y := by
  induction y with
  | nil => cases hv
  | cons a l ih =>
    rw [peak_cons]
    rcases List.mem_cons.mp hv with rfl | hv2
    · exact le_max_left _ _
    · exact le_trans (ih hv2) (le_max_right _ _)

theorem peak_eq_zero_all_zero (y : List ℚ) (h : peak y = 0) : ∀ v ∈ y, v = 0 := by
  intro v hv
  have h1 := abs_le_peak y v hv
  rw [h] at h1
  exact abs_eq_zero.mp (le_antisymm h1 (abs_nonneg v))

theorem peak_map_mul_const (y : List ℚ) (c : ℚ) (hc : 0 ≤ c) :
    peak (y.map (fun v => v * c)) = peak y * c := by
  induction y with
  | nil => simp [peak]
  | cons a l ih =>
    rw [List.map_cons, peak_cons, peak_cons, ih, abs_mul, abs_of_nonneg hc,
      max_mul_of_nonneg _ _ hc]

theorem mean_normalizeBuf (ymax : ℚ) (y : List ℚ) (hne : y ≠ []) :
    mean (normalizeBuf ymax y) = 0 := by
  unfold normalizeBuf
  split_ifs with h
  · rw [mean_map_mul_const, mean_center y hne]
    ring
  · exact mean_center y hne

theorem peak_normalizeBuf (ymax : ℚ) (y : List ℚ) (hy : 0 < ymax)
    (h : 0 < peak (centered y)) : peak (normalizeBuf ymax y) = ymax := by
  unfold normalizeBuf
  rw [if_pos h, peak_map_mul_const _ _ (le_of_lt (div_pos hy h))]
  field_simp

theorem normalizeBuf_silent (ymax : ℚ) (y : List ℚ)
    (h : peak (centered y) = 0) : normalizeBuf ymax y = centered y := by
  unfold normalizeBuf
  rw [if_neg]
  rw [h]
  exact lt_irrefl 0

theorem clip1_abs_le (ymax v : ℚ) (h : 0 ≤ ymax) : |clip1 ymax v| ≤ ymax := by
  unfold clip1
  split_ifs with h1 h2
  · rw [abs_neg, abs_of_nonneg h]
  · rw [abs_of_nonneg h]
  · exact abs_le.mpr ⟨le_of_not_lt h1, le_of_not_lt h2⟩

theorem clip1_of_abs_le (ymax v : ℚ) (h : |v| ≤ ymax) : clip1 ymax v = v := by
  obtain ⟨h1, h2⟩ := abs_le.mp h
  unfold clip1
  rw [if_neg (not_lt.mpr h1), if_neg (not_lt.mpr h2)]

theorem length_normalizeBuf (ymax : ℚ) (y : List ℚ) :
    (normalizeBuf ymax y).length = y.length := by
  unfold normalizeBuf centered
  split_ifs <;> simp

theorem length_clipBuf (ymax : ℚ) (y : List ℚ) : (clipBuf ymax y).length = y.length := by
  simp [clipBuf]

theorem synthBuffer_spec (frames : List (List ℚ)) (stride L : ℕ) (d : ℚ)
    (hne : frames ≠ []) (hlen : ∀ f ∈ frames, f.length = L)
    (hd0 : 0 ≤ d) (hd1 : d ≤ 1) :
    (synthBuffer frames stride d).isSome ∧
    ∀ b, synthBuffer frames stride d = some b →
      b.length = (frames.length - 1) * stride + L := by
  obtain ⟨h1, h2⟩ := olaBuffer_spec frames stride L hne hlen
  unfold synthBuffer
  cases ho : olaBuffer frames stride with
  | none => rw [ho] at h1; cases h1
  | some y0 =>
    rw [Option.some_bind]
    constructor
    · split_ifs with hd
      · exact deemphasis_isSome y0 d (le_of_lt hd) hd1
      · rfl
    · intro b hb
      split_ifs at hb with hd
      · rw [deemphasis_length y0 d b hb]
        exact h2 y0 ho
      · cases hb
        exact h2 y0 ho

/-- C1: for every non-empty sequence of frames, each of length `lchunk`, and
every positive stride, `synthesize` produces a waveform of length exactly
`(numFrames - 1) * stride + lchunk`. -/
theorem claim1_synthesize_length (frames : List (List ℚ)) (stride lchunk : ℕ)
    (d ymax : ℚ) (norm : Bool) (hne : frames ≠ [])
    (hlen : ∀ f ∈ frames, f.length = lchunk) (hstride : 0 < stride)
    (hd0 : 0 ≤ d) (hd1 : d ≤ 1) :
    (synthesize frames stride d ymax norm).isSome ∧
    ∀ y, synthesize frames stride d ymax norm = some y →
      y.length = (frames.length - 1) * stride + lchunk := by
  obtain ⟨h1, h2⟩ := synthBuffer_spec frames stride lchunk d hne hlen hd0 hd1
  unfold synthesize
  cases hb : synthBuffer frames stride d with
  | none => rw [hb] at h1; cases h1
  | some b =>
    constructor
    · rfl
    · intro y hy
      rw [Option.map_some'] at hy
      cases hy
      cases norm <;>
        simp [length_normalizeBuf, length_clipBuf, h2 b hb]

/-- Concrete instantiation of C1: two frames of length 2, stride 1. -/
theorem claim1_witness :
    (synthesize [[(1 : ℚ), 2], [3, 4]] 1 0 (98/100) false).isSome = true ∧
    [(49 : ℚ)/50, 49/50, 49/50].length = ([[(1 : ℚ), 2], [3, 4]].length - 1) * 1 + 2 := by
  have h := claim1_synthesize_length [[(1 : ℚ), 2], [3, 4]] 1 2 0 (98/100) false
    (by simp)
    (by intro f hf; rcases List.mem_cons.mp hf with rfl | hf2; · rfl
        rcases List.mem_cons.mp hf2 with rfl | hf3; · rfl
        cases hf3)
    Nat.one_pos le_rfl zero_le_one
  refine ⟨h.1, h.2 [(49 : ℚ)/50, 49/50, 49/50] ?_⟩
  norm_num [synthesize, synthBuffer, olaBuffer, olaGo, sliceAdd, clipBuf, clip1]

/-- C9: `synthesize` fails on an empty frames sequence (the script raises on
`frames[0]` before doing anything else), and no PCM data is written. -/
theorem claim9_empty_input (stride : ℕ) (d ymax : ℚ) (norm : Bool) :
    synthesize [] stride d ymax norm = none ∧
    synthWrite [] stride d ymax norm = none := by
  constructor <;> rfl

/-- C4: `deemphasis` rejects `alpha` outside `[0, 1]`; it is the identity when
`alpha` is exactly 0 or 1; otherwise the output satisfies `y[0] = x[0]` and
`y[n] = x[n] + alpha * y[n-1]` for every `n ≥ 1`. -/
theorem claim4_deemphasis (x : List ℚ) (alpha : ℚ) :
    (¬ (0 ≤ alpha ∧ alpha ≤ 1) → deemphasis x alpha = none) ∧
    ((0 ≤ alpha ∧ alpha ≤ 1) → (alpha = 0 ∨ alpha = 1) →
      deemphasis x alpha = some x) ∧
    (∀ y, deemphasis x alpha = some y → ¬ alpha = 0 → ¬ alpha = 1 →
      y.length = x.length ∧ y.getD 0 0 = x.getD 0 0 ∧
      ∀ n, 1 ≤ n → n < x.length →
        y.getD n 0 = x.getD n 0 + alpha * y.getD (n - 1) 0) := by
  refine ⟨fun h => ?_, fun h h2 => ?_, fun y hy ha0 ha1 => ?_⟩
  · unfold deemphasis
    rw [if_neg h]
  · unfold deemphasis
    rw [if_pos h, if_pos h2]
  · unfold deemphasis at hy
    split_ifs at hy with h1 h2
    · rcases h2 with h | h
      · exact absurd h ha0
      · exact absurd h ha1
    · cases hy
      cases x with
      | nil => exact ⟨rfl, rfl, fun n h1n hn => by simp at hn⟩
      | cons x0 xs =>
        refine ⟨by simp [deemphGo_length], rfl, fun n h1n hn => ?_⟩
        match n, h1n with
        | 1, _ =>
          have hne : xs ≠ [] := by
            intro hxs
            rw [hxs] at hn
            simp at hn
          simpa using deemphGo_getD_zero alpha x0 xs hne
        | m + 2, _ =>
          have hm : m + 1 < xs.length := by
            simp at hn
            omega
          simpa using deemphGo_getD_succ alpha x0 xs m hm

/-- Concrete instantiation of C4: rejection at alpha = 3/2, identity at
alpha = 1, and the recurrence at alpha = 1/2 on the input [1, 8]. -/
theorem claim4_witness :
    deemphasis [(1 : ℚ), 8] (3/2) = none ∧
    deemphasis [(1 : ℚ), 8] 1 = some [(1 : ℚ), 8] ∧
    [(1 : ℚ), 17/2].getD 1 0 =
      [(1 : ℚ), 8].getD 1 0 + (1/2) * [(1 : ℚ), 17/2].getD 0 0 := by
  refine ⟨(claim4_deemphasis [(1 : ℚ), 8] (3/2)).1 (by norm_num),
          (claim4_deemphasis [(1 : ℚ), 8] 1).2.1 (by norm_num) (Or.inr rfl), ?_⟩
  have h := (claim4_deemphasis [(1 : ℚ), 8] (1/2)).2.2 [(1 : ℚ), 17/2]
      (by norm_num [deemphasis, deemphGo]) (by norm_num) (by norm_num)
  exact h.2.2 1 le_rfl (by norm_num)

theorem olaBuffer_cons (f0 : List ℚ) (rest : List (List ℚ)) (stride : ℕ) :
    olaBuffer (f0 :: rest) stride =
      olaGo stride
        (List.replicate (((f0 :: rest).length - 1) * stride + f0.length) (0 : ℚ))
        0 (f0 :: rest) := rfl

/-- C2: overlap-add linearity of the accumulation loop.  If every frame except
the one at index `i = pre.length` is all-zero, the accumulated buffer equals
that frame's values placed at offset `i * stride` and zero elsewhere; in
particular three frames of length 4 with stride 2 produce a buffer of length 8
whose overlap region `[2, 4)` is `frame0[2:4] + frame1[0:2]`. -/
theorem claim2_overlap_add :
    (∀ (pre post : List (List ℚ)) (fi : List ℚ) (stride L : ℕ),
      (∀ f ∈ pre ++ fi :: post, f.length = L) →
      (∀ f ∈ pre, ∀ v ∈ f, v = 0) →
      (∀ f ∈ post, ∀ v ∈ f, v = 0) →
      (olaBuffer (pre ++ fi :: post) stride).isSome ∧
      ∀ z, olaBuffer (pre ++ fi :: post) stride = some z →
        z.length = ((pre ++ fi :: post).length - 1) * stride + L ∧
        ∀ t, z.getD t 0 =
          if pre.length * stride ≤ t ∧ t < pre.length * stride + L
          then fi.getD (t - pre.length * stride) 0 else 0) ∧
    (∀ a b c d e f g h' i' j k l : ℚ,
      olaBuffer [[a, b, c, d], [e, f, g, h'], [i', j, k, l]] 2 =
        some [a, b, c + e, d + f, g + i', h' + j, k, l]) := by
  constructor
  · intro pre post fi stride L hlen hpre hpost
    have hne : pre ++ fi :: post ≠ [] := by simp
    obtain ⟨hsome, hlen2⟩ := olaBuffer_spec _ stride L hne hlen
    refine ⟨hsome, fun z hz => ⟨hlen2 z hz, fun t => ?_⟩⟩
    obtain ⟨f0, rest, hl⟩ := List.exists_cons_of_ne_nil hne
    rw [hl, olaBuffer_cons, ← hl] at hz
    rw [olaGo_append] at hz
    obtain ⟨y1, hy1, hz2⟩ := Option.bind_eq_some.mp hz
    rw [Nat.zero_add] at hz2
    simp only [olaGo] at hz2
    obtain ⟨y2, hy2, hz3⟩ := Option.bind_eq_some.mp hz2
    have hzt := olaGo_allzero post stride y2 (pre.length + 1) z hpost hz3 t
    have hy2t := sliceAdd_getD y1 (pre.length * stride) fi y2 hy2 t
    have hy1t := olaGo_allzero pre stride _ 0 y1 hpre hy1 t
    rw [getD_replicate_zero] at hy1t
    rw [hzt, hy2t, hy1t, hlen fi (by simp)]
    rw [zero_add]
  · intro a b c d e f g h' i' j k l
    show olaGo 2 [0, 0, 0, 0, 0, 0, 0, 0] 0
        [[a, b, c, d], [e, f, g, h'], [i', j, k, l]] =
      some [a, b, c + e, d + f, g + i', h' + j, k, l]
    norm_num [olaGo, sliceAdd]

/-- Concrete instantiation of C2: a zero frame followed by [5, 7] with stride
1, and the three-frame stride-2 scenario at concrete sample values. -/
theorem claim2_witness :
    olaBuffer [[(0 : ℚ), 0], [5, 7]] 1 = some [0, 5, 7] ∧
    [(0 : ℚ), 5, 7].getD 1 0 =
      (if [[(0 : ℚ), 0]].length * 1 ≤ 1 ∧ 1 < [[(0 : ℚ), 0]].length * 1 + 2
       then [(5 : ℚ), 7].getD (1 - [[(0 : ℚ), 0]].length * 1) 0 else 0) ∧
    olaBuffer [[(1 : ℚ), 2, 3, 4], [5, 6, 7, 8], [9, 10, 11, 12]] 2 =
      some [1, 2, 3 + 5, 4 + 6, 7 + 9, 8 + 10, 11, 12] := by
  have hbuf : olaBuffer [[(0 : ℚ), 0], [5, 7]] 1 = some [0, 5, 7] := by
    norm_num [olaBuffer, olaGo, sliceAdd]
  have h1 := (claim2_overlap_add.1 [[(0 : ℚ), 0]] [] [5, 7] 1 2
    (by intro f hf; rcases List.mem_cons.mp hf with rfl | hf2; · rfl
        rcases List.mem_cons.mp hf2 with rfl | hf3; · rfl
        cases hf3)
    (by intro f hf; rcases List.mem_cons.mp hf with rfl | hf2
        · intro v hv; rcases List.mem_cons.mp hv with rfl | hv2; · rfl
          rcases List.mem_cons.mp hv2 with rfl | hv3; · rfl
          cases hv3
        · cases hf2)
    (by intro f hf; cases hf)).2 [0, 5, 7] hbuf
  exact ⟨hbuf, h1.2 1, claim2_overlap_add.2 1 2 3 4 5 6 7 8 9 10 11 12⟩

/-- C3: with `normalize = true` the returned waveform is mean-subtracted and
peak-scaled to `ymax` (mean 0, peak = ymax) unless the centered buffer is
entirely silent, in which case no scaling is applied; with `normalize = false`
every sample is clipped to `[-ymax, ymax]` and in-range samples are
unchanged. -/
theorem claim3_normalize_policy :
    (∀ (frames : List (List ℚ)) (stride : ℕ) (d ymax : ℚ) (y : List ℚ),
      synthesize frames stride d ymax true = some y → y ≠ [] → 0 < ymax →
      mean y = 0 ∧ (peak y = ymax ∨ ∀ v ∈ y, v = 0)) ∧
    (∀ (ymax : ℚ) (y : List ℚ), peak (centered y) = 0 →
      normalizeBuf ymax y = centered y) ∧
    (∀ (frames : List (List ℚ)) (stride : ℕ) (d ymax : ℚ) (b : List ℚ),
      synthBuffer frames stride d = some b →
      synthesize frames stride d ymax false = some (b.map (clip1 ymax))) ∧
    (∀ (ymax v : ℚ),
      (0 ≤ ymax → |clip1 ymax v| ≤ ymax) ∧ (|v| ≤ ymax → clip1 ymax v = v)) := by
  refine ⟨?_, ?_, ?_, ?_⟩
  · intro frames stride d ymax y hy hne hpos
    unfold synthesize at hy
    obtain ⟨b, hb, hyb⟩ := Option.map_eq_some'.mp hy
    rw [if_pos rfl] at hyb
    have hbne : b ≠ [] := by
      intro hb0
      rw [hb0] at hyb
      apply hne
      rw [← hyb]
      unfold normalizeBuf centered mean peak
      simp
    constructor
    · rw [← hyb]
      exact mean_normalizeBuf ymax b hbne
    · rcases lt_or_eq_of_le (peak_nonneg (centered b)) with hpk | hpk
      · left
        rw [← hyb]
        exact peak_normalizeBuf ymax b hpos hpk
      · right
        rw [← hyb, normalizeBuf_silent ymax b hpk.symm]
        exact peak_eq_zero_all_zero _ hpk.symm
  · intro ymax y h
    exact normalizeBuf_silent ymax y h
  · intro frames stride d ymax b hb
    unfold synthesize
    rw [hb, Option.map_some']
    rfl
  · intro ymax v
    exact ⟨clip1_abs_le ymax v, clip1_of_abs_le ymax v⟩

/-- Concrete instantiation of C3: normalize mode on the single frame [1, -1]
(mean 0), and clip mode's bound and identity on single samples. -/
theorem claim3_witness :
    mean [(49 : ℚ)/50, -49/50] = 0 ∧
    |clip1 (1 : ℚ) 2| ≤ 1 ∧
    clip1 (1 : ℚ) (1/2) = 1/2 := by
  have h1 := (claim3_normalize_policy.1 [[(1 : ℚ), -1]] 1 0 (98/100)
      [(49 : ℚ)/50, -49/50]
      (by norm_num [synthesize, synthBuffer, olaBuffer, olaGo, sliceAdd,
        normalizeBuf, centered, mean, peak])
      (by simp) (by norm_num)).1
  exact ⟨h1, (claim3_normalize_policy.2.2.2 1 2).1 (by norm_num),
    (claim3_normalize_policy.2.2.2 1 (1/2)).2
      (by rw [abs_of_nonneg (by norm_num : (0 : ℚ) ≤ 1/2)]; norm_num)⟩

/-! ### Quantization -/

theorem truncQ_spec (q : ℚ) :
    |(truncQ q : ℚ)| ≤ |q| ∧ |q - (truncQ q : ℚ)| < 1 := by
  unfold truncQ
  split_ifs with hq
  · have h1 : q ≤ (⌈q⌉ : ℚ) := Int.le_ceil q
    have h2 : (⌈q⌉ : ℚ) < q + 1 := Int.ceil_lt_add_one q
    have h3 : (⌈q⌉ : ℚ) ≤ 0 := by
      have : (⌈q⌉ : ℤ) ≤ 0 := Int.ceil_le.mpr (by exact_mod_cast le_of_lt hq)
      exact_mod_cast this
    rw [abs_of_nonpos h3, abs_of_nonpos (le_of_lt hq), abs_of_nonpos (by linarith)]
    constructor <;> linarith
  · push_neg at hq
    have h1 : (⌊q⌋ : ℚ) ≤ q := Int.floor_le q
    have h2 : q < (⌊q⌋ : ℚ) + 1 := Int.lt_floor_add_one q
    have h3 : (0 : ℚ) ≤ (⌊q⌋ : ℚ) := by
      have : (0 : ℤ) ≤ ⌊q⌋ := Int.floor_nonneg.mpr hq
      exact_mod_cast this
    rw [abs_of_nonneg h3, abs_of_nonneg hq, abs_of_nonneg (by linarith)]
    constructor <;> linarith

/-- C8 is false as stated: for the single frame [3/65534] in clip mode the
script writes the PCM value 1 (truncating cast of 1.5) whereas round-to-nearest
of sample * 32767 gives 2. -/
theorem claim8_counterexample :
    synthWrite [[(3 : ℚ)/65534]] 1 0 (98/100) false = some [1] ∧
    (synthesize [[(3 : ℚ)/65534]] 1 0 (98/100) false).map
      (fun y => y.map fun v => round (v * 32767)) = some [2] ∧
    (1 : ℤ) ≠ 2 := by
  refine ⟨?_, ?_, by decide⟩
  · norm_num [synthWrite, synthesize, synthBuffer, olaBuffer, olaGo, sliceAdd,
      clipBuf, clip1, writtenPCM, truncQ]
  · norm_num [synthesize, synthBuffer, olaBuffer, olaGo, sliceAdd, clipBuf,
      clip1, round_eq]

/-- C8 (amended): the 16-bit PCM value written by `synthesize` is the
truncation toward zero of `sample * 32767` (the numpy `int16` cast), not
round-to-nearest: each written value has magnitude at most that of
`sample * 32767` and differs from it by strictly less than 1. -/
theorem claim8_truncation (frames : List (List ℚ)) (stride : ℕ) (d ymax : ℚ)
    (norm : Bool) (y : List ℚ)
    (h : synthesize frames stride d ymax norm = some y) :
    synthWrite frames stride d ymax norm = some (writtenPCM y) ∧
    ∀ k, k < y.length →
      (writtenPCM y).getD k 0 = truncQ (y.getD k 0 * 32767) ∧
      |((writtenPCM y).getD k 0 : ℚ)| ≤ |y.getD k 0 * 32767| ∧
      |y.getD k 0 * 32767 - ((writtenPCM y).getD k 0 : ℚ)| < 1 := by
  constructor
  · unfold synthWrite
    rw [h, Option.map_some']
  · intro k hk
    have hget : (writtenPCM y).getD k 0 = truncQ (y.getD k 0 * 32767) := by
      unfold writtenPCM
      rw [List.getD_eq_getElem?_getD, List.getElem?_map,
        List.getElem?_eq_getElem hk, List.getD_eq_getElem?_getD,
        List.getElem?_eq_getElem hk]
      rfl
    rw [hget]
    exact ⟨rfl, (truncQ_spec _).1, (truncQ_spec _).2⟩

/-- Concrete instantiation of the amended C8 at the counterexample input. -/
theorem claim8_truncation_witness :
    synthWrite [[(3 : ℚ)/65534]] 1 0 (98/100) false =
      some (writtenPCM [(3 : ℚ)/65534]) ∧
    (writtenPCM [(3 : ℚ)/65534]).getD 0 0 = truncQ ((3 : ℚ)/65534 * 32767) := by
  have h := claim8_truncation [[(3 : ℚ)/65534]] 1 0 (98/100) false
    [(3 : ℚ)/65534]
    (by norm_num [synthesize, synthBuffer, olaBuffer, olaGo, sliceAdd,
      clipBuf, clip1])
  exact ⟨h.1, ((h.2 0 (by norm_num)).1).trans (by norm_num)⟩

/-! ### The forced-target-speaker override (C5) -/

theorem pbRecord_rng_congr (cfg : Cfg) (g : ℕ → String) (s : String)
    (hf : cfg.force = some s) (st : PBState) (r : List ℚ × Info) :
    pbRecord { cfg with rng := g } st r = pbRecord cfg st r := by
  unfold pbRecord fnOf
  simp [hf]

theorem pbRecs_rng_congr (cfg : Cfg) (g : ℕ → String) (s : String)
    (hf : cfg.force = some s) :
    ∀ (rs : List (List ℚ × Info)) (st : PBState),
      pbRecs { cfg with rng := g } st rs = pbRecs cfg st rs := by
  intro rs
  induction rs with
  | nil => intro st; rfl
  | cons r rest ih =>
    intro st
    simp only [pbRecs, pbRecord_rng_congr cfg g s hf st r]
    cases pbRecord cfg st r with
    | none => rfl
    | some st2 => simp only [Option.some_bind, ih st2]

theorem pbBatches_rng_congr (cfg : Cfg) (g : ℕ → String) (s : String)
    (hf : cfg.force = some s) :
    ∀ (bs : List Batch) (st : PBState),
      pbBatches { cfg with rng := g } st bs = pbBatches cfg st bs := by
  intro bs
  induction bs with
  | nil => intro st; rfl
  | cons b rest ih =>
    intro st
    simp only [pbBatches, pbRecs_rng_congr cfg g s hf b]
    cases pbRecs cfg { st with isource := [], itarget := [] } b with
    | none => rfl
    | some st2 => simp only [Option.some_bind, ih]

theorem pbRecord_forced_inv (cfg : Cfg) (s : String) (hf : cfg.force = some s)
    (st st2 : PBState) (r : List ℚ × Info) (h : pbRecord cfg st r = some st2)
    (ht : st.target = some s) (hall : ∀ tr ∈ st.fnlist, tr.2.2 = some s)
    (hd : st.dcount = st.fnlist.length) :
    st2.target = some s ∧ (∀ tr ∈ st2.fnlist, tr.2.2 = some s) ∧
      st2.dcount = st2.fnlist.length := by
  unfold pbRecord at h
  cases h1 : cfg.table (some (cfg.split1 (cfg.filenames.getD r.2.fileIdx ""))) with
  | none =>
    simp only [h1] at h
    exact Option.noConfusion h
  | some sid =>
    cases h2 : cfg.table st.target with
    | none =>
      simp only [h1, h2] at h
      exact Option.noConfusion h
    | some tid =>
      simp only [h1, h2, hf, Option.isSome_some, if_true] at h
      split_ifs at h with hcond
      · cases h
        refine ⟨rfl, ?_, by simp [hd]⟩
        intro tr htr
        simp only [List.mem_append, List.mem_singleton] at htr
        rcases htr with htr | rfl
        · exact hall tr htr
        · exact ht
      · cases h
        exact ⟨ht, hall, hd⟩

theorem pbRecs_forced_inv (cfg : Cfg) (s : String) (hf : cfg.force = some s) :
    ∀ (rs : List (List ℚ × Info)) (st st2 : PBState),
      pbRecs cfg st rs = some st2 →
      st.target = some s → (∀ tr ∈ st.fnlist, tr.2.2 = some s) →
      st.dcount = st.fnlist.length →
      st2.target = some s ∧ (∀ tr ∈ st2.fnlist, tr.2.2 = some s) ∧
        st2.dcount = st2.fnlist.length := by
  intro rs
  induction rs with
  | nil =>
    intro st st2 h ht hall hd
    cases h
    exact ⟨ht, hall, hd⟩
  | cons r rest ih =>
    intro st st2 h ht hall hd
    simp only [pbRecs] at h
    cases hr : pbRecord cfg st r with
    | none => rw [hr] at h; cases h
    | some stm =>
      rw [hr, Option.some_bind] at h
      obtain ⟨ht2, hall2, hd2⟩ := pbRecord_forced_inv cfg s hf st stm r hr ht hall hd
      exact ih stm st2 h ht2 hall2 hd2

theorem pbBatches_forced_inv (cfg : Cfg) (s : String) (hf : cfg.force = some s) :
    ∀ (bs : List Batch) (st st2 : PBState),
      pbBatches cfg st bs = some st2 →
      st.target = some s → (∀ tr ∈ st.fnlist, tr.2.2 = some s) →
      st.dcount = st.fnlist.length →
      st2.target = some s ∧ (∀ tr ∈ st2.fnlist, tr.2.2 = some s) ∧
        st2.dcount = st2.fnlist.length := by
  intro bs
  induction bs with
  | nil =>
    intro st st2 h ht hall hd
    cases h
    exact ⟨ht, hall, hd⟩
  | cons b rest ih =>
    intro st st2 h ht hall hd
    simp only [pbBatches] at h
    cases hr : pbRecs cfg { st with isource := [], itarget := [] } b with
    | none => rw [hr] at h; cases h
    | some stm =>
      rw [hr, Option.some_bind] at h
      obtain ⟨ht2, hall2, hd2⟩ :=
        pbRecs_forced_inv cfg s hf b { st with isource := [], itarget := [] } stm
          hr ht hall hd
      split_ifs at h with hstop
      · cases h
        exact ⟨ht2, hall2, hd2⟩
      · exact ih _ st2 h ht2 hall2 hd2

/-- C5: when `force_target_speaker` is set, every recorded
`(filename, source_speaker, target_speaker)` triple carries exactly the forced
target speaker; one random draw per recorded file still occurs but its result
is discarded, so the plan does not depend on the random stream at all. -/
theorem claim5_forced_target (cfg : Cfg) (batches : List Batch) (s : String)
    (hf : cfg.force = some s) :
    (∀ plan, buildPlan cfg batches = some plan →
      (∀ tr ∈ plan.fnlist, tr.2.2 = some s) ∧
      plan.dcount = plan.fnlist.length) ∧
    (∀ g : ℕ → String,
      buildPlan { cfg with rng := g } batches = buildPlan cfg batches) := by
  constructor
  · intro plan hp
    obtain ⟨_, hall, hd⟩ := pbBatches_forced_inv cfg s hf batches (pbInit cfg) plan hp
      (by simp [pbInit, hf]) (by intro tr htr; cases htr) rfl
    exact ⟨hall, hd⟩
  · intro g
    unfold buildPlan
    rw [pbBatches_rng_congr cfg g s hf]
    rfl

/-- Concrete instantiation of C5: the plan for `cfgW` does not change when the
random stream is replaced. -/
theorem claim5_witness :
    buildPlan { cfgW with rng := fun _ => "Q" } batchesW = buildPlan cfgW batchesW :=
  (claim5_forced_target cfgW batchesW "B" rfl).2 (fun _ => "Q")

/-! ### The unforced initial target speaker (C10) -/

theorem pbRecord_table_isSome (cfg : Cfg) (st st2 : PBState) (r : List ℚ × Info)
    (h : pbRecord cfg st r = some st2) : (cfg.table st.target).isSome = true := by
  unfold pbRecord at h
  cases h1 : cfg.table (some (cfg.split1 (cfg.filenames.getD r.2.fileIdx ""))) with
  | none =>
    simp only [h1] at h
    exact Option.noConfusion h
  | some sid =>
    cases h2 : cfg.table st.target with
    | none =>
      simp only [h1, h2] at h
      exact Option.noConfusion h
    | some tid => rfl

theorem pbRecord_target_not_last (cfg : Cfg) (st st2 : PBState) (r : List ℚ × Info)
    (hl : r.2.last = false) (h : pbRecord cfg st r = some st2) :
    st2.target = st.target := by
  unfold pbRecord at h
  cases h1 : cfg.table (some (cfg.split1 (cfg.filenames.getD r.2.fileIdx ""))) with
  | none =>
    simp only [h1] at h
    exact Option.noConfusion h
  | some sid =>
    cases h2 : cfg.table st.target with
    | none =>
      simp only [h1, h2] at h
      exact Option.noConfusion h
    | some tid =>
      simp only [h1, h2] at h
      have hcond : ¬ (r.2.last = true ∧ st.nfiles < cfg.maxfiles) := by
        rw [hl]
        simp
      rw [if_neg hcond] at h
      cases h
      rfl

theorem pbRecs_target_const (cfg : Cfg) :
    ∀ (rs : List (List ℚ × Info)) (st st2 : PBState),
      (∀ r ∈ rs, r.2.last = false) → pbRecs cfg st rs = some st2 →
      st2.target = st.target := by
  intro rs
  induction rs with
  | nil =>
    intro st st2 _ h
    cases h
    rfl
  | cons r rest ih =>
    intro st st2 hl h
    simp only [pbRecs] at h
    cases hr : pbRecord cfg st r with
    | none => rw [hr] at h; exact Option.noConfusion h
    | some stm =>
      rw [hr, Option.some_bind] at h
      rw [ih stm st2 (fun x hx => hl x (by simp [hx])) h]
      exact pbRecord_target_not_last cfg st stm r (hl r (by simp)) hr

theorem pbRecs_append (cfg : Cfg) :
    ∀ (p q : List (List ℚ × Info)) (st : PBState),
      pbRecs cfg st (p ++ q) = (pbRecs cfg st p).bind fun st2 => pbRecs cfg st2 q := by
  intro p
  induction p with
  | nil => intro q st; rfl
  | cons r rest ih =>
    intro q st
    simp only [List.cons_append, pbRecs]
    cases pbRecord cfg st r with
    | none => rfl
    | some stm =>
      simp only [Option.some_bind]
      rw [List.append_eq]
      exact ih q stm

theorem pbRecord_firstTriple_inv (cfg : Cfg) (st st2 : PBState)
    (r : List ℚ × Info) (h : pbRecord cfg st r = some st2)
    (q1 : st.fnlist = [] → st.target = none)
    (q2 : ∀ tr, st.fnlist.head? = some tr → tr.2.2 = none) :
    (st2.fnlist = [] → st2.target = none) ∧
    (∀ tr, st2.fnlist.head? = some tr → tr.2.2 = none) := by
  unfold pbRecord at h
  cases h1 : cfg.table (some (cfg.split1 (cfg.filenames.getD r.2.fileIdx ""))) with
  | none =>
    simp only [h1] at h
    exact Option.noConfusion h
  | some sid =>
    cases h2 : cfg.table st.target with
    | none =>
      simp only [h1, h2] at h
      exact Option.noConfusion h
    | some tid =>
      simp only [h1, h2] at h
      by_cases hcond : r.2.last = true ∧ st.nfiles < cfg.maxfiles
      · rw [if_pos hcond] at h
        cases h
        constructor
        · intro hemp
          simp at hemp
        · intro tr htr
          simp only [List.head?_append] at htr
          cases hfn : st.fnlist.head? with
          | some tr0 =>
            rw [hfn] at htr
            rw [Option.or_some] at htr
            injection htr with htr2
            rw [← htr2]
            exact q2 tr0 hfn
          | none =>
            rw [hfn] at htr
            rw [Option.none_or] at htr
            have hemp : st.fnlist = [] := List.head?_eq_none_iff.mp hfn
            injection htr with htr2
            rw [← htr2]
            simp [q1 hemp]
      · rw [if_neg hcond] at h
        cases h
        exact ⟨q1, q2⟩

theorem pbRecs_firstTriple_inv (cfg : Cfg) :
    ∀ (rs : List (List ℚ × Info)) (st st2 : PBState),
      pbRecs cfg st rs = some st2 →
      (st.fnlist = [] → st.target = none) →
      (∀ tr, st.fnlist.head? = some tr → tr.2.2 = none) →
      (st2.fnlist = [] → st2.target = none) ∧
      (∀ tr, st2.fnlist.head? = some tr → tr.2.2 = none) := by
  intro rs
  induction rs with
  | nil =>
    intro st st2 h q1 q2
    cases h
    exact ⟨q1, q2⟩
  | cons r rest ih =>
    intro st st2 h q1 q2
    simp only [pbRecs] at h
    cases hr : pbRecord cfg st r with
    | none => rw [hr] at h; exact Option.noConfusion h
    | some stm =>
      rw [hr, Option.some_bind] at h
      obtain ⟨q1m, q2m⟩ := pbRecord_firstTriple_inv cfg st stm r hr q1 q2
      exact ih stm st2 h q1m q2m

theorem pbBatches_firstTriple_inv (cfg : Cfg) :
    ∀ (bs : List Batch) (st st2 : PBState),
      pbBatches cfg st bs = some st2 →
      (st.fnlist = [] → st.target = none) →
      (∀ tr, st.fnlist.head? = some tr → tr.2.2 = none) →
      (st2.fnlist = [] → st2.target = none) ∧
      (∀ tr, st2.fnlist.head? = some tr → tr.2.2 = none) := by
  intro bs
  induction bs with
  | nil =>
    intro st st2 h q1 q2
    cases h
    exact ⟨q1, q2⟩
  | cons b rest ih =>
    intro st st2 h q1 q2
    simp only [pbBatches] at h
    cases hr : pbRecs cfg { st with isource := [], itarget := [] } b with
    | none => rw [hr] at h; exact Option.noConfusion h
    | some stm =>
      rw [hr, Option.some_bind] at h
      obtain ⟨q1m, q2m⟩ :=
        pbRecs_firstTriple_inv cfg b { st with isource := [], itarget := [] } stm hr q1 q2
      split_ifs at h with hstop
      · cases h
        exact ⟨q1m, q2m⟩
      · exact ih _ st2 h q1m q2m

/-- C10 (implicit): with no forced target speaker, the current target stays
`None` through every record before the first file boundary, every target-id
lookup up to and including the first boundary record queries the speaker table
with the `None` key (so the builder can only get past its first record if the
table maps `None`), and the first recorded triple carries a `None` target. -/
theorem claim10_unforced_null_target (cfg : Cfg) (batches : List Batch)
    (hf : cfg.force = none) :
    (∀ p st2, (∀ r ∈ p, r.2.last = false) →
      pbRecs cfg (pbInit cfg) p = some st2 → st2.target = none) ∧
    (∀ p r, (∀ x ∈ p, x.2.last = false) →
      (pbRecs cfg (pbInit cfg) (p ++ [r])).isSome = true →
      (cfg.table none).isSome = true) ∧
    (∀ r rs bs, batches = (r :: rs) :: bs →
      (buildPlan cfg batches).isSome = true → (cfg.table none).isSome = true) ∧
    (∀ plan tr, buildPlan cfg batches = some plan →
      plan.fnlist.head? = some tr → tr.2.2 = none) := by
  have hinit : (pbInit cfg).target = none := by simp [pbInit, hf]
  refine ⟨?_, ?_, ?_, ?_⟩
  · intro p st2 hl h
    rw [pbRecs_target_const cfg p (pbInit cfg) st2 hl h]
    exact hinit
  · intro p r hl h
    rw [pbRecs_append] at h
    cases hp : pbRecs cfg (pbInit cfg) p with
    | none => rw [hp] at h; cases h
    | some stm =>
      rw [hp, Option.some_bind] at h
      simp only [pbRecs] at h
      cases hr : pbRecord cfg stm r with
      | none => rw [hr] at h; cases h
      | some stm2 =>
        have := pbRecord_table_isSome cfg stm stm2 r hr
        rw [pbRecs_target_const cfg p (pbInit cfg) stm hl hp, hinit] at this
        exact this
  · intro r rs bs hb h
    rw [hb] at h
    unfold buildPlan pbBatches at h
    cases hrec : pbRecs cfg { pbInit cfg with isource := [], itarget := [] } (r :: rs) with
    | none => rw [hrec] at h; cases h
    | some stm =>
      simp only [pbRecs] at hrec
      cases hr : pbRecord cfg { pbInit cfg with isource := [], itarget := [] } r with
      | none => rw [hr] at hrec; exact Option.noConfusion hrec
      | some stm2 =>
        have := pbRecord_table_isSome cfg _ stm2 r hr
        simp only [pbInit, hf] at this
        exact this
  · intro plan tr hp htr
    have := pbBatches_firstTriple_inv cfg batches (pbInit cfg) plan hp
      (fun _ => hinit) (by intro tr0 h0; simp [pbInit] at h0)
    exact this.2 tr htr

/-- Concrete instantiation of C10: with the table of `cfgU` mapping the null
key, the plan for the one-file batch stream succeeds, so the theorem yields
that the table maps the null key. -/
theorem claim10_witness : (cfgU.table none).isSome = true :=
  (claim10_unforced_null_target cfgU batchesW rfl).2.2.1 ([0], ⟨0, true⟩) [] []
    rfl (by rfl)

/-! ### Counting lemmas for the max-files bound and flush ordering (C6, C7) -/

theorem lastInfos_cons_true (f : List ℚ) (inf : Info) (rs : List (List ℚ × Info))
    (h : inf.last = true) : lastInfos ((f, inf) :: rs) = inf :: lastInfos rs := by
  simp [lastInfos, h]

theorem lastInfos_cons_false (f : List ℚ) (inf : Info) (rs : List (List ℚ × Info))
    (h : inf.last = false) : lastInfos ((f, inf) :: rs) = lastInfos rs := by
  simp [lastInfos, h]

theorem lastInfos_append (p q : List (List ℚ × Info)) :
    lastInfos (p ++ q) = lastInfos p ++ lastInfos q := by
  simp [lastInfos]

theorem drop_take_succ (l : List (String × String × Option String)) (n k : ℕ)
    (tr : String × String × Option String) (h : l.get? n = some tr) :
    (l.drop n).take (k + 1) = tr :: (l.drop (n + 1)).take k := by
  rw [List.get?_eq_getElem?] at h
  obtain ⟨hlt, hEq⟩ := List.getElem?_eq_some_iff.mp h
  rw [List.drop_eq_getElem_cons hlt, List.take_succ_cons, hEq]

theorem pbRecord_cases (cfg : Cfg) (st st2 : PBState) (r : List ℚ × Info)
    (h : pbRecord cfg st r = some st2) :
    (r.2.last = true ∧ st.nfiles < cfg.maxfiles ∧
      st2.nfiles = st.nfiles + 1 ∧
      st2.fnlist = st.fnlist ++
        [(fnOf cfg r.2, cfg.split1 (cfg.filenames.getD r.2.fileIdx ""), st.target)] ∧
      st2.itrafos = st.itrafos) ∨
    (¬ (r.2.last = true ∧ st.nfiles < cfg.maxfiles) ∧
      st2.nfiles = st.nfiles ∧ st2.fnlist = st.fnlist ∧ st2.itrafos = st.itrafos) := by
  unfold pbRecord at h
  cases h1 : cfg.table (some (cfg.split1 (cfg.filenames.getD r.2.fileIdx ""))) with
  | none =>
    simp only [h1] at h
    exact Option.noConfusion h
  | some sid =>
    cases h2 : cfg.table st.target with
    | none =>
      simp only [h1, h2] at h
      exact Option.noConfusion h
    | some tid =>
      simp only [h1, h2] at h
      by_cases hcond : r.2.last = true ∧ st.nfiles < cfg.maxfiles
      · rw [if_pos hcond] at h
        cases h
        exact Or.inl ⟨hcond.1, hcond.2, rfl, rfl, rfl⟩
      · rw [if_neg hcond] at h
        cases h
        exact Or.inr ⟨hcond, rfl, rfl, rfl⟩

theorem pbRecs_count_spec (cfg : Cfg) :
    ∀ (rs : List (List ℚ × Info)) (st st2 : PBState),
      pbRecs cfg st rs = some st2 → st.nfiles = st.fnlist.length →
      st2.nfiles = st2.fnlist.length ∧
      st2.itrafos = st.itrafos ∧
      (st.nfiles ≤ cfg.maxfiles →
        st2.nfiles = min cfg.maxfiles (st.nfiles + (lastInfos rs).length)) ∧
      st2.fnlist.map (fun tr => tr.1) =
        st.fnlist.map (fun tr => tr.1) ++
          ((lastInfos rs).map (fnOf cfg)).take (cfg.maxfiles - st.nfiles) := by
  intro rs
  induction rs with
  | nil =>
    intro st st2 h hinv
    cases h
    exact ⟨hinv, rfl, fun hle => by simp [lastInfos]; omega, by simp [lastInfos]⟩
  | cons r rest ih =>
    intro st st2 h hinv
    simp only [pbRecs] at h
    cases hr : pbRecord cfg st r with
    | none => rw [hr] at h; exact Option.noConfusion h
    | some stm =>
      rw [hr, Option.some_bind] at h
      obtain ⟨f, inf⟩ := r
      rcases pbRecord_cases cfg st stm (f, inf) hr with
        ⟨hlast, hlt, hn, hfn, hit⟩ | ⟨hcond, hn, hfn, hit⟩
      · have hinv2 : stm.nfiles = stm.fnlist.length := by
          rw [hn, hfn]
          simp [hinv]
        obtain ⟨i1, i2, i3, i4⟩ := ih stm st2 h hinv2
        rw [lastInfos_cons_true f inf rest hlast]
        refine ⟨i1, by rw [i2, hit], ?_, ?_⟩
        · intro hle
          rw [i3 (by omega), hn]
          simp only [List.length_cons]
          omega
        · rw [i4, hfn, hn]
          simp only [List.map_append, List.map_cons, List.map_nil]
          have hbud : cfg.maxfiles - st.nfiles = (cfg.maxfiles - (st.nfiles + 1)) + 1 := by
            omega
          rw [hbud, List.take_succ_cons]
          simp
      · have hinv2 : stm.nfiles = stm.fnlist.length := by rw [hn, hfn]; exact hinv
        obtain ⟨i1, i2, i3, i4⟩ := ih stm st2 h hinv2
        cases hl : inf.last with
        | true =>
          have hge : ¬ st.nfiles < cfg.maxfiles := fun hlt => hcond ⟨hl, hlt⟩
          rw [lastInfos_cons_true f inf rest hl]
          refine ⟨i1, by rw [i2, hit], ?_, ?_⟩
          · intro hle
            rw [i3 (by omega), hn]
            simp only [List.length_cons]
            omega
          · rw [i4, hfn, hn]
            have hbud : cfg.maxfiles - st.nfiles = 0 := by omega
            rw [hbud]
            simp
        | false =>
          rw [lastInfos_cons_false f inf rest hl]
          refine ⟨i1, by rw [i2, hit], ?_, ?_⟩
          · intro hle
            rw [i3 (by omega), hn]
          · rw [i4, hfn, hn]

theorem pbBatches_count_spec (cfg : Cfg) :
    ∀ (bs : List Batch) (st st2 : PBState),
      pbBatches cfg st bs = some st2 → st.nfiles = st.fnlist.length →
      st.nfiles ≤ cfg.maxfiles →
      st2.nfiles = st2.fnlist.length ∧ st2.nfiles ≤ cfg.maxfiles ∧
      ∃ k, k ≤ bs.length ∧
        st2.itrafos.length = st.itrafos.length + k ∧
        st2.fnlist.map (fun tr => tr.1) =
          st.fnlist.map (fun tr => tr.1) ++
            ((lastInfos (bs.take k).flatten).map (fnOf cfg)).take
              (cfg.maxfiles - st.nfiles) := by
  intro bs
  induction bs with
  | nil =>
    intro st st2 h hinv hle
    cases h
    exact ⟨hinv, hle, 0, le_rfl, rfl, by simp [lastInfos]⟩
  | cons b rest ih =>
    intro st st2 h hinv hle
    simp only [pbBatches] at h
    cases hr : pbRecs cfg { st with isource := [], itarget := [] } b with
    | none => rw [hr] at h; exact Option.noConfusion h
    | some stm =>
      rw [hr, Option.some_bind] at h
      obtain ⟨i1, i2, i3, i4⟩ := pbRecs_count_spec cfg b _ stm hr hinv
      have hnm : stm.nfiles = min cfg.maxfiles (st.nfiles + (lastInfos b).length) :=
        i3 hle
      split_ifs at h with hstop
      · cases h
        refine ⟨i1, (show stm.nfiles ≤ cfg.maxfiles by omega), 1, by simp,
          by rw [i2]; simp, ?_⟩
        simp only [List.take_succ_cons, List.take_zero, List.flatten_cons,
          List.flatten_nil, List.append_nil]
        exact i4
      · have hstop2 : ¬ cfg.maxfiles ≤ stm.nfiles := by simpa using hstop
        have hle2 : stm.nfiles ≤ cfg.maxfiles := by omega
        obtain ⟨j1, j2, k, hk, j3, j4⟩ := ih _ st2 h i1 hle2
        refine ⟨j1, j2, k + 1, by simp; omega, ?_, ?_⟩
        · rw [j3]
          simp only [i2]
          simp only [List.length_append, List.length_cons, List.length_nil]
          omega
        · rw [j4]
          simp only [i4]
          rw [List.take_succ_cons, List.flatten_cons, lastInfos_append,
            List.map_append, List.take_append_eq_append_take]
          have harith : cfg.maxfiles - stm.nfiles =
              cfg.maxfiles - st.nfiles - ((lastInfos b).map (fnOf cfg)).length := by
            simp only [List.length_map]
            omega
          rw [harith, List.append_assoc]

theorem slPrep_snd (cfg : Cfg) (b : Batch)
    (hT : ∀ xs, (cfg.transform xs).length = xs.length) :
    (slPrep cfg b).map Prod.snd = b.map Prod.snd := by
  unfold slPrep
  apply List.map_snd_zip
  simp only [List.length_map]
  split_ifs with hc
  · rw [hT]
    simp
  · simp

theorem lastInfos_eq_of_snd_eq (p q : List (List ℚ × Info))
    (h : p.map Prod.snd = q.map Prod.snd) : lastInfos p = lastInfos q := by
  unfold lastInfos
  rw [h]

theorem slRecs_spec (cfg : Cfg) (fnlist : List (String × String × Option String)) :
    ∀ (rs : List (List ℚ × Info)) (st st2 : SLState),
      slRecs cfg fnlist st rs = some st2 → st.nfiles = st.outs.length →
      st2.nfiles = st2.outs.length ∧
      st.outs.length ≤ st2.outs.length ∧
      st2.outs.map (fun e => e.2.1) =
        st.outs.map (fun e => e.2.1) ++
          (fnlist.drop st.nfiles).take (st2.outs.length - st.outs.length) ∧
      st2.outs.map (fun e => e.1) =
        st.outs.map (fun e => e.1) ++
          (lastInfos rs).take (st2.outs.length - st.outs.length) ∧
      ((lastInfos rs).length = st2.outs.length - st.outs.length ∨
        cfg.maxfiles ≤ st2.nfiles) := by
  intro rs
  induction rs with
  | nil =>
    intro st st2 h hinv
    cases h
    exact ⟨hinv, le_rfl, by simp, by simp, Or.inl (by simp [lastInfos])⟩
  | cons r rest ih =>
    obtain ⟨f, inf⟩ := r
    intro st st2 h hinv
    simp only [slRecs] at h
    cases hl : inf.last with
    | false =>
      rw [hl] at h
      simp only [Bool.false_eq_true, if_false] at h
      obtain ⟨j1, j2, j3, j4, j5⟩ := ih _ st2 h hinv
      rw [lastInfos_cons_false f inf rest hl]
      exact ⟨j1, j2, j3, j4, j5⟩
    | true =>
      rw [hl] at h
      simp only [if_true] at h
      cases hg : fnlist.get? st.nfiles with
      | none =>
        rw [hg] at h
        exact Option.noConfusion h
      | some tr =>
        rw [hg] at h
        simp only [] at h
        rw [lastInfos_cons_true f inf rest hl]
        by_cases hstop : cfg.maxfiles ≤ st.nfiles + 1
        · rw [if_pos hstop] at h
          cases h
          simp only [List.map_append, List.map_cons, List.map_nil,
            List.length_append, List.length_cons, List.length_nil]
          have hm : st.outs.length + 1 - st.outs.length = 1 := by omega
          refine ⟨by simp [hinv], by omega, ?_, ?_,
            Or.inr (show cfg.maxfiles ≤ st.nfiles + 1 from hstop)⟩
          · rw [hinv] at hg ⊢
            rw [hm, drop_take_succ fnlist st.outs.length 0 tr hg]
            simp
          · rw [hm]
            simp
        · rw [if_neg hstop] at h
          have hinv2 : st.nfiles + 1 = (st.outs ++
              [(inf, tr, synthesize (st.audio ++ [f]) cfg.stride 0 (98/100)
                (!cfg.synthNonorm))]).length := by
            simp [hinv]
          obtain ⟨j1, j2, j3, j4, j5⟩ := ih _ st2 h hinv2
          simp only [List.map_append, List.map_cons, List.map_nil,
            List.length_append, List.length_cons, List.length_nil] at j2 j3 j4 j5 ⊢
          have hlen2 : st.outs.length ≤ st2.outs.length := by omega
          have hm : st2.outs.length - st.outs.length =
              (st2.outs.length - (st.outs.length + 1)) + 1 := by omega
          refine ⟨j1, hlen2, ?_, ?_, ?_⟩
          · rw [j3, hm]
            rw [hinv] at hg ⊢
            rw [drop_take_succ fnlist st.outs.length _ tr hg]
            simp
          · rw [j4, hm, List.take_succ_cons]
            simp only [Nat.zero_add, List.append_assoc, List.singleton_append]
          · rcases j5 with j5 | j5
            · left
              omega
            · exact Or.inr j5

theorem slBatches_spec (cfg : Cfg) (fnlist : List (String × String × Option String))
    (hfn : fnlist.length ≤ cfg.maxfiles) :
    ∀ (bs : List Batch) (st st2 : SLState),
      slBatches cfg fnlist st bs = some st2 → st.nfiles = st.outs.length →
      st2.nfiles = st2.outs.length ∧
      st.outs.length ≤ st2.outs.length ∧
      st2.outs.map (fun e => e.2.1) =
        st.outs.map (fun e => e.2.1) ++
          (fnlist.drop st.nfiles).take (st2.outs.length - st.outs.length) ∧
      st2.outs.map (fun e => e.1) =
        st.outs.map (fun e => e.1) ++
          (lastInfos (bs.map (slPrep cfg)).flatten).take
            (st2.outs.length - st.outs.length) := by
  intro bs
  induction bs with
  | nil =>
    intro st st2 h hinv
    cases h
    exact ⟨hinv, le_rfl, by simp, by simp [lastInfos]⟩
  | cons b rest ih =>
    intro st st2 h hinv
    simp only [slBatches] at h
    cases hr : slRecs cfg fnlist st (slPrep cfg b) with
    | none => rw [hr] at h; exact Option.noConfusion h
    | some st1 =>
      rw [hr, Option.some_bind] at h
      obtain ⟨i1, i2, i3, i4, i5⟩ := slRecs_spec cfg fnlist (slPrep cfg b) st st1 hr hinv
      obtain ⟨j1, j2, j3, j4⟩ := ih st1 st2 h i1
      have hm12 : st2.outs.length - st.outs.length =
          (st1.outs.length - st.outs.length) + (st2.outs.length - st1.outs.length) := by
        omega
      have hm1le : st1.outs.length - st.outs.length ≤ (lastInfos (slPrep cfg b)).length := by
        have := congrArg List.length i4
        simp only [List.length_map, List.length_append, List.length_take] at this
        omega
      have hflat : lastInfos ((b :: rest).map (slPrep cfg)).flatten =
          lastInfos (slPrep cfg b) ++ lastInfos (rest.map (slPrep cfg)).flatten := by
        rw [List.map_cons, List.flatten_cons, lastInfos_append]
      have hn1 : st1.nfiles = st.nfiles + (st1.outs.length - st.outs.length) := by
        omega
      refine ⟨j1, by omega, ?_, ?_⟩
      · rw [j3, i3, hm12, List.take_add, List.drop_drop, ← hn1, List.append_assoc]
      · rw [j4, i4, hm12, hflat]
        rcases i5 with i5 | i5
        · rw [← i5, List.take_append, List.take_length, List.append_assoc]
        · have hdropnil : fnlist.drop st1.nfiles = [] := by
            apply List.drop_eq_nil_of_le
            omega
          rw [hdropnil] at j3
          simp only [List.take_nil, List.append_nil] at j3
          have hm2 : st2.outs.length - st1.outs.length = 0 := by
            have := congrArg List.length j3
            simp only [List.length_map] at this
            omega
          rw [hm2, Nat.add_zero, List.take_append_of_le_length hm1le]
          simp

theorem lastInfos_prep_flatten (cfg : Cfg)
    (hT : ∀ xs, (cfg.transform xs).length = xs.length) :
    ∀ bs : List Batch,
      lastInfos ((bs.map (slPrep cfg)).flatten) = lastInfos bs.flatten := by
  intro bs
  induction bs with
  | nil => rfl
  | cons b rest ih =>
    rw [List.map_cons, List.flatten_cons, List.flatten_cons, lastInfos_append,
      lastInfos_append, ih, lastInfos_eq_of_snd_eq _ _ (slPrep_snd cfg b hT)]

/-- C6: the streaming conversion loop flushes at most `maxfiles` files in
total, and once the bound is reached at a record in the middle of a batch the
remaining records of that batch are skipped (the inner loop breaks), so none
of them triggers a flush. -/
theorem claim6_maxfiles_bound (cfg : Cfg) (batches : List Batch) :
    (∀ plan st, slRun cfg batches = some (plan, st) →
      st.outs.length ≤ cfg.maxfiles) ∧
    (∀ (fnlist : List (String × String × Option String)) (st : SLState)
        (f : List ℚ) (inf : Info) (rs : List (List ℚ × Info)),
      inf.last = true → cfg.maxfiles ≤ st.nfiles + 1 →
      slRecs cfg fnlist st ((f, inf) :: rs) = slRecs cfg fnlist st [(f, inf)]) := by
  constructor
  · intro plan st h
    unfold slRun at h
    cases hb : buildPlan cfg batches with
    | none => rw [hb] at h; exact Option.noConfusion h
    | some plan0 =>
      rw [hb, Option.some_bind] at h
      obtain ⟨st0, hsl, hpair⟩ := Option.map_eq_some'.mp h
      injection hpair with h1 h2
      subst h1
      subst h2
      obtain ⟨p1, p2, _⟩ :=
        pbBatches_count_spec cfg batches (pbInit cfg) plan0 hb rfl (Nat.zero_le _)
      obtain ⟨s1, s2, s3, s4⟩ :=
        slBatches_spec cfg plan0.fnlist (by omega)
          (batches.take plan0.itrafos.length) slInit st0 hsl rfl
      have hlen := congrArg List.length s3
      simp only [List.length_map, List.length_append, List.length_take,
        List.length_nil, List.length_drop, slInit] at hlen
      omega
  · intro fnlist st f inf rs hl hstop
    cases hg : fnlist[st.nfiles]? with
    | none => simp [slRecs, hl, hg]
    | some tr => simp [slRecs, hl, hg, hstop]

/-- C7: files are flushed in exactly the order in which their boundary flags
appear in the processed batch stream, and the `n`-th flush uses the filename,
source speaker and target speaker of the `n`-th triple of the transformation
plan; the plan's triples themselves list the boundary records of the processed
stream in order (truncated at `maxfiles`), with the filename derived from the
boundary record's file index. -/
theorem claim7_flush_order (cfg : Cfg) (batches : List Batch)
    (hT : ∀ xs, (cfg.transform xs).length = xs.length) :
    ∀ plan st, slRun cfg batches = some (plan, st) →
      st.outs.map (fun e => e.2.1) = plan.fnlist.take st.outs.length ∧
      st.outs.map (fun e => e.1) =
        (lastInfos ((batches.take plan.itrafos.length).flatten)).take
          st.outs.length ∧
      plan.fnlist.map (fun tr => tr.1) =
        ((lastInfos ((batches.take plan.itrafos.length).flatten)).map
          (fnOf cfg)).take cfg.maxfiles := by
  intro plan st h
  unfold slRun at h
  cases hb : buildPlan cfg batches with
  | none => rw [hb] at h; exact Option.noConfusion h
  | some plan0 =>
    rw [hb, Option.some_bind] at h
    obtain ⟨st0, hsl, hpair⟩ := Option.map_eq_some'.mp h
    injection hpair with h1 h2
    subst h1
    subst h2
    obtain ⟨p1, p2, k, hk, hkit, hfnmap⟩ :=
      pbBatches_count_spec cfg batches (pbInit cfg) plan0 hb rfl (Nat.zero_le _)
    have hkelim : k = plan0.itrafos.length := by
      simp [pbInit] at hkit
      omega
    subst hkelim
    obtain ⟨s1, s2, s3, s4⟩ :=
      slBatches_spec cfg plan0.fnlist (by omega)
        (batches.take plan0.itrafos.length) slInit st0 hsl rfl
    simp only [slInit, List.map_nil, List.nil_append, List.drop_zero,
      Nat.sub_zero, List.length_nil] at s3 s4
    refine ⟨s3, ?_, ?_⟩
    · rw [s4, lastInfos_prep_flatten cfg hT]
    · rw [hfnmap]
      simp [pbInit]

/-- Concrete instantiation of C6: the single-file run flushes one file with
`maxfiles = 1`, and a mid-batch break discards the rest of the batch. -/
theorem claim6_witness :
    ({ audio := [], nfiles := 1,
       outs := [(⟨0, true⟩, ("a", "A", some "B"), some [(0 : ℚ)])] } : SLState).outs.length
      ≤ cfgW.maxfiles ∧
    slRecs cfgW [("a", "A", some "B")] slInit
        [([0], ⟨0, true⟩), ([9], ⟨0, true⟩)] =
      slRecs cfgW [("a", "A", some "B")] slInit [([0], ⟨0, true⟩)] := by
  have hstr : "a.pt".dropRight 3 = "a" := rfl
  constructor
  · exact (claim6_maxfiles_bound cfgW batchesW).1
      { target := some "B", fnlist := [("a", "A", some "B")], itrafos := [([0], [0])],
        isource := [0], itarget := [0], nfiles := 1, dcount := 1 }
      _
      (by norm_num [slRun, buildPlan, pbBatches, pbRecs, pbRecord, pbInit, slBatches,
        slRecs, slPrep, slInit, cfgW, batchesW, fnOf, synthesize, synthBuffer,
        olaBuffer, olaGo, sliceAdd, clipBuf, clip1, hstr])
  · exact (claim6_maxfiles_bound cfgW batchesW).2 [("a", "A", some "B")] slInit
      [0] ⟨0, true⟩ [([9], ⟨0, true⟩)] rfl (by norm_num [slInit, cfgW])

/-- Concrete instantiation of C7: the one flush of the single-file run uses
the first (and only) triple of the transformation plan. -/
theorem claim7_witness :
    [((⟨0, true⟩ : Info), (("a", "A", some "B") : String × String × Option String),
        (some [(0 : ℚ)] : Option (List ℚ)))].map (fun e => e.2.1) =
      ([("a", "A", (some "B" : Option String))]).take 1 := by
  have hstr : "a.pt".dropRight 3 = "a" := rfl
  have hT : ∀ xs : List (List ℚ), (cfgW.transform xs).length = xs.length :=
    fun xs => rfl
  have h := claim7_flush_order cfgW batchesW hT
    { target := some "B", fnlist := [("a", "A", some "B")], itrafos := [([0], [0])],
      isource := [0], itarget := [0], nfiles := 1, dcount := 1 }
    { audio := [], nfiles := 1,
      outs := [(⟨0, true⟩, ("a", "A", some "B"), some [(0 : ℚ)])] }
    (by norm_num [slRun, buildPlan, pbBatches, pbRecs, pbRecord, pbInit, slBatches,
      slRecs, slPrep, slInit, cfgW, batchesW, fnOf, synthesize, synthBuffer,
      olaBuffer, olaGo, sliceAdd, clipBuf, clip1, hstr])
  exact h.1
